import Mathlib

/-!
Verification of the layout-and-reveal engine of the modular-arithmetic
visualizer (`src/main.rs`) against its natural-language specification.

Embedding conventions:
* Rust `u32`/`usize` values become `Nat`; all arithmetic the program performs
  stays within tiny bounds (tens), so no wrap-around modelling is needed.
* Rust `f32` coordinate arithmetic is modelled over the exact rationals `ℚ`:
  every coordinate expression in the program is built from integer constants,
  `+`, `-`, `*`, `/` and the trigonometric seed values.  The composed map
  `i ↦ deg_to_rad(i as f32).sin()` (resp. `.cos()`) is abstracted as an
  arbitrary function `sinD cosD : Nat → ℚ` taken as a parameter: no claim
  treated here depends on the numeric value of a sine or cosine.
* Rust panics (integer division by zero, `Iterator::step_by` with step `0`,
  out-of-bounds slice indexing) are modelled as `Except Panic` errors /
  `Option.none`: a Rust function that can panic becomes a fallible function
  whose error value records which panic fires.
-/

/-- Marker circle diameter, `const CIRCLE_SIZE: f32 = 32.0` (main.rs line 4). -/
def CIRCLE_SIZE : ℚ := 32

/-- Gap between consecutive rings, `const RING_SPACING: f32 = 40.0` (line 5). -/
def RING_SPACING : ℚ := 40

/-- Base-radius divisor, `const RING_RADIUS_SCALE: f32 = 4.0` (line 6). -/
def RING_RADIUS_SCALE : ℚ := 4

/-- Geometry for one displayed number, mirroring `struct Point` (lines 9-17). -/
structure Point where
  /-- X coordinate. -/
  x : ℚ
  /-- Y coordinate. -/
  y : ℚ
  /-- Number displayed inside the marker. -/
  label : Nat
deriving DecidableEq

/-- Rust panics the layout/reveal code can actually raise. -/
inductive Panic where
  /-- Integer division or remainder by zero. -/
  | divByZero
  /-- `Iterator::step_by` called with step `0` (happens when `modulus > 360`). -/
  | zeroStep
deriving DecidableEq

/-- Directed segment handed to the renderer, mirroring `struct ArrowPoints`
(lines 44-49); the Rust field `end` is a Lean keyword, hence `end_`. -/
structure ArrowPoints where
  /-- Starting point. -/
  start : ℚ × ℚ
  /-- Ending point. -/
  end_ : ℚ × ℚ
deriving DecidableEq

/-- Rust `u32::div_ceil`: quotient rounded upward.  `a.div_ceil(b)` returns
`a / b + 1` exactly when the division leaves a remainder (panics in Rust on
`b = 0`; the two call sites below guard that case explicitly). -/
def div_ceil (a b : Nat) : Nat :=
  a / b + if a % b = 0 then 0 else 1

/-- Ring count chosen by `generate_points` (main.rs lines 168-172):
one ring in cycle mode, otherwise `(natural + 1).div_ceil(modulus)`. -/
def num_rings (cycle : Bool) (natural modulus : Nat) : Nat :=
  if cycle then 1 else div_ceil (natural + 1) modulus

/-- Angular slots walked by `for i in (0..360).step_by(stride)` (line 186):
the multiples of `stride` below `360`, in increasing order.  Only meaningful
for `stride ≥ 1`; `step_by(0)` panics and is rejected before this list is
ever built. -/
def step_slots (stride : Nat) : List Nat :=
  (List.range 360).filter (fun i => i % stride == 0)

/-- Inner slot loop of `generate_points` (lines 186-204): walk the angular
slots, stop (`break`) as soon as the running label counter `number` reaches
`current_ring_max = modulus * (nr + 1)`, otherwise emit the point
`(sin(rad i) * scale_factor, cos(rad i) * scale_factor)` labelled `number`
and continue with `number + 1`. -/
def fill_ring (sinD cosD : Nat → ℚ) (scale_factor : ℚ) (current_ring_max : Nat) :
    List Nat → Nat → List Point
  | [], _ => []
  | i :: rest, number =>
    if current_ring_max ≤ number then []
    else
      { x := sinD i * scale_factor, y := cosD i * scale_factor, label := number }
        :: fill_ring sinD cosD scale_factor current_ring_max rest (number + 1)

/-- Outer ring loop of `generate_points` (lines 182-205): for each ring index
`nr` below the ring count, fill the ring at radius
`ring_radius + nr * RING_SPACING` starting from the current label counter,
then continue outward with the counter advanced by the points just placed.
The first argument is the number of rings still to walk (`num_rings - nr`). -/
def ring_loop (sinD cosD : Nat → ℚ) (ring_radius : ℚ) (modulus stride : Nat) :
    Nat → Nat → Nat → List Point
  | 0, _, _ => []
  | fuel + 1, nr, number =>
    let scale_factor := ring_radius + (nr : ℚ) * RING_SPACING
    let ring := fill_ring sinD cosD scale_factor (modulus * (nr + 1))
      (step_slots stride) number
    ring ++ ring_loop sinD cosD ring_radius modulus stride fuel (nr + 1)
      (number + ring.length)

/-- Embedding of `generate_points` (main.rs lines 166-207).  With
`modulus = 0` the Rust code panics on a division by zero (`div_ceil` in the
reduction branch, the stride division `360 / modulus` in both branches)
before producing any point.  With `modulus > 360` the stride truncates to
`0` and `(0..360).step_by(0)` panics on the first ring.  Otherwise the walk
described by `ring_loop` runs to completion. -/
def generate_points (sinD cosD : Nat → ℚ) (cycle : Bool) (natural modulus : Nat) :
    Except Panic (List Point) :=
  if modulus = 0 then .error .divByZero
  else
    let ring_radius : ℚ :=
      if cycle then 320 else CIRCLE_SIZE * (modulus : ℚ) / RING_RADIUS_SCALE
    let stride := 360 / modulus
    if stride = 0 then .error .zeroStep
    else .ok (ring_loop sinD cosD ring_radius modulus stride
      (num_rings cycle natural modulus) 0 0)

/-- Embedding of `compute_rings` (main.rs lines 237-256).  The ring count is
recomputed as `(natural + 1).div_ceil(modulus)` (panics on `modulus = 0`),
`ppr = points_len / num_rings` is the integer points-per-ring estimate, and
each ring `nr`, walked outermost first (`(0..num_rings).rev()`), is paired
with opacity `1.0` when `time.saturating_sub(1) / ppr >= nr` (a division
that panics when `ppr = 0`) and `0.0` otherwise.  `Nat` subtraction is
exactly `saturating_sub`. -/
def compute_rings (natural modulus points_len time : Nat) :
    Except Panic (List (ℚ × ℚ)) :=
  if modulus = 0 then .error .divByZero
  else
    let nrings := div_ceil (natural + 1) modulus
    let ppr := points_len / nrings
    if ppr = 0 then .error .divByZero
    else .ok (((List.range nrings).reverse).map (fun nr : Nat =>
      (CIRCLE_SIZE * (modulus : ℚ) / RING_RADIUS_SCALE + (nr : ℚ) * RING_SPACING,
        if nr ≤ (time - 1) / ppr then (1 : ℚ) else 0)))

/-- Points actually drawn by `draw_points` (main.rs lines 262-282): in cycle
mode the time guard is skipped and every point is drawn; otherwise the loop
returns at the first index `i ≥ time`, so exactly the prefix of length
`time` is drawn.  `time` is the Rust `model.time as usize`, i.e. the
truncated elapsed time. -/
def visible_points (cycle : Bool) (time : Nat) (points : List Point) : List Point :=
  if cycle then points else points.take time

/-- Embedding of `shrink_arrow` (main.rs lines 343-356): linear interpolation
pulling both endpoints inward by the factor `t_factor = 0.05 = 1/20`. -/
def shrink_arrow (start_point end_point : Point) : ArrowPoints :=
  let t_factor : ℚ := 1 / 20
  let x1 := start_point.x + t_factor * (end_point.x - start_point.x)
  let y1 := start_point.y + t_factor * (end_point.y - start_point.y)
  let x2 := end_point.x - t_factor * (end_point.x - start_point.x)
  let y2 := end_point.y - t_factor * (end_point.y - start_point.y)
  { start := (x1, y1), end_ := (x2, y2) }

/-- Pair of points connected by `draw_arrow_reduction` (main.rs lines
289-314), or `none` when nothing is drawn: the function returns early unless
`time > points.len()`, filters the points whose label is congruent to
`result` modulo `modulus`, and draws `shrink_arrow(outer, inner)` where
`inner`/`outer` are the first/last matching points.  The returned pair is
`(outer, inner)`, the endpoints before shrinking; the drawn segment is
`shrink_arrow outer inner`.  In every committed model `modulus ≥ 1`, so the
Rust `%` here cannot panic. -/
def draw_arrow_reduction (time : Nat) (points : List Point) (modulus result : Nat) :
    Option (Point × Point) :=
  if time ≤ points.length then none
  else
    let matching := points.filter (fun point => point.label % modulus == result)
    match matching.head?, matching.getLast? with
    | some inner_point, some outer_point => some (outer_point, inner_point)
    | _, _ => none

/-- Body of the `draw_cycle_arrows` loop (main.rs lines 320-336) over the
still-to-visit points, carrying the enumeration index `i`: each visited point
is connected to `points[(i + natural) % modulus]`, and an out-of-bounds index
is the Rust panic, modelled as `none`. -/
def cycle_arrows_go (natural modulus : Nat) (points : List Point) :
    List Point → Nat → Option (List ArrowPoints)
  | [], _ => some []
  | start_point :: rest, i =>
    match points.get? ((i + natural) % modulus) with
    | none => none
    | some end_point =>
      (cycle_arrows_go natural modulus points rest (i + 1)).map
        (fun arrows => shrink_arrow start_point end_point :: arrows)

/-- Embedding of `draw_cycle_arrows` (main.rs lines 320-336): the loop breaks
at the first index `i ≥ time`, so only the prefix of length `time` is
walked; each walked point `i` sources one arrow to point
`(i + natural) % modulus`.  In every committed model `modulus ≥ 1`, so the
Rust `%` here cannot panic. -/
def draw_cycle_arrows (time natural modulus : Nat) (points : List Point) :
    Option (List ArrowPoints) :=
  cycle_arrows_go natural modulus points (points.take time) 0

/-- Committed application state, mirroring the fields of `struct Model`
(main.rs lines 20-41) that the layout/reveal code reads; `time` is already
truncated to `usize` as every consumer reads it. -/
structure Model where
  /-- Show cycles within the mod group. -/
  cycle : Bool
  /-- The natural number being reduced. -/
  natural : Nat
  /-- Base of the modular arithmetic. -/
  modulus : Nat
  /-- Result of the mod operation. -/
  result : Nat
  /-- Points with coordinates. -/
  points : List Point
  /-- Animation counter. -/
  time : Nat
deriving DecidableEq

/-- The commit branch of `update` (main.rs lines 111-119): on the Generate
click the model's configuration fields are replaced, `result` becomes
`natural % modulus` (a Rust `%` that panics when `modulus = 0`, before
`generate_points` is even called), the points are regenerated, and the
animation clock resets to `0`. -/
def commit (sinD cosD : Nat → ℚ) (new_cycle : Bool) (new_natural new_modulus : Nat) :
    Except Panic Model :=
  if new_modulus = 0 then .error .divByZero
  else
    match generate_points sinD cosD new_cycle new_natural new_modulus with
    | .error e => .error e
    | .ok pts =>
      .ok { cycle := new_cycle, natural := new_natural, modulus := new_modulus,
            result := new_natural % new_modulus, points := pts, time := 0 }

/-- Squared Euclidean distance between two planar points, used to express
the strictly-closer clauses of the arrow-shrinking claim. -/
def dist2 (p q : ℚ × ℚ) : ℚ :=
  (p.1 - q.1) ^ 2 + (p.2 - q.2) ^ 2

/-- Ring-count formula as the specification words it: ceiling division
`ceil((natural + 1) / modulus)`, written over `Nat` as
`(natural + 1 + modulus - 1) / modulus`.  Stated from the spec for the
refinement comparison with the code's `div_ceil`-based `num_rings`. -/
def ceil_rings_spec (natural modulus : Nat) : Nat :=
  (natural + 1 + modulus - 1) / modulus

/-- Decidable equality on `Except`, so closed runs of the embedded fallible
functions can be checked by `decide`. -/
instance {ε α : Type} [DecidableEq ε] [DecidableEq α] : DecidableEq (Except ε α) :=
  fun x y =>
    match x, y with
    | .error a, .error b =>
      if h : a = b then .isTrue (by rw [h])
      else .isFalse (by intro hc; cases hc; exact h rfl)
    | .error _, .ok _ => .isFalse (by intro hc; cases hc)
    | .ok _, .error _ => .isFalse (by intro hc; cases hc)
    | .ok a, .ok b =>
      if h : a = b then .isTrue (by rw [h])
      else .isFalse (by intro hc; cases hc; exact h rfl)

/-- All-zero trigonometric seed used to instantiate witnesses and
counterexamples at concrete inputs. -/
def q0 : Nat → ℚ := fun _ => 0

/-- Labels emitted by the inner slot loop: starting the walk at label
`number` with room for `cap - number` further labels (and at least that many
remaining angular slots), the ring receives exactly the labels
`number, number + 1, …, cap - 1`. -/
theorem fill_ring_label_map (sD cD : Nat → ℚ) (scale : ℚ) (cap : Nat)
    (slots : List Nat) :
    ∀ number : Nat, cap - number ≤ slots.length →
      (fill_ring sD cD scale cap slots number).map Point.label
        = List.range' number (cap - number) := by
  induction slots with
  | nil =>
    intro number h
    have h0 : cap - number = 0 := by simpa using h
    simp [fill_ring, h0]
  | cons i rest ih =>
    intro number h
    by_cases hc : cap ≤ number
    · have h0 : cap - number = 0 := by omega
      simp [fill_ring, hc, h0]
    · have hrec : cap - (number + 1) ≤ rest.length := by
        simp only [List.length_cons] at h; omega
      have hsub : cap - number = (cap - (number + 1)) + 1 := by omega
      simp only [fill_ring, if_neg hc, List.map_cons, ih (number + 1) hrec,
        hsub, List.range'_succ]

/-- Length version of `fill_ring_label_map`. -/
theorem fill_ring_length (sD cD : Nat → ℚ) (scale : ℚ) (cap : Nat)
    (slots : List Nat) (number : Nat) (h : cap - number ≤ slots.length) :
    (fill_ring sD cD scale cap slots number).length = cap - number := by
  have := congrArg List.length (fill_ring_label_map sD cD scale cap slots number h)
  simpa using this

/-- Counting the multiples of `s` below `N`: the filtered range has exactly
`ceil(N / s)` elements. -/
theorem filter_mod_length (s : Nat) (hs : 0 < s) :
    ∀ N : Nat, ((List.range N).filter (fun i => i % s == 0)).length
      = (N + s - 1) / s := by
  intro N
  induction N with
  | zero =>
    have h0 : (0 + s - 1) / s = 0 := Nat.div_eq_of_lt (by omega)
    simpa using h0.symm
  | succ n ih =>
    have hstep : (n + 1 + s - 1) / s
        = (n + s - 1) / s + if s ∣ n + s then 1 else 0 := by
      have h1 : n + 1 + s - 1 = (n + s - 1) + 1 := by omega
      rw [h1, Nat.succ_div]
      have h2 : n + s - 1 + 1 = n + s := by omega
      rw [h2]
    rw [List.range_succ, List.filter_append, List.length_append, ih, hstep]
    by_cases h : n % s = 0
    · have hdvd : s ∣ n + s :=
        Nat.dvd_add_self_right.mpr (Nat.dvd_iff_mod_eq_zero.mpr h)
      simp [h, hdvd]
    · have hdvd : ¬ s ∣ n + s := by
        rw [Nat.dvd_add_self_right]
        exact fun hd => h (Nat.dvd_iff_mod_eq_zero.mp hd)
      simp [h, hdvd]

/-- Any modulus between `1` and `360` fits inside one pass of angular slots:
the slot list for stride `360 / modulus` has at least `modulus` entries. -/
theorem modulus_le_slots (m : Nat) (h1 : 1 ≤ m) (h2 : m ≤ 360) :
    m ≤ (step_slots (360 / m)).length := by
  have hs : 0 < 360 / m := (Nat.le_div_iff_mul_le h1).mpr (by omega)
  have hlen : (step_slots (360 / m)).length = (360 + (360 / m) - 1) / (360 / m) :=
    filter_mod_length (360 / m) hs 360
  rw [hlen, Nat.le_div_iff_mul_le hs]
  have hmul : 360 / m * m ≤ 360 := Nat.div_mul_le_self 360 m
  have : m * (360 / m) ≤ 360 := by rw [Nat.mul_comm]; exact hmul
  omega

/-- Labels emitted by the outer ring walk: starting at ring `nr` with the
label counter at `modulus * nr` and `fuel` rings still to fill, the walk
emits exactly the labels `modulus * nr, …, modulus * nr + fuel * modulus - 1`
(each ring receives exactly `modulus` labels). -/
theorem ring_loop_label_map (sD cD : Nat → ℚ) (rr : ℚ) (m stride : Nat)
    (hslots : m ≤ (step_slots stride).length) :
    ∀ fuel nr : Nat,
      (ring_loop sD cD rr m stride fuel nr (m * nr)).map Point.label
        = List.range' (m * nr) (fuel * m) := by
  intro fuel
  induction fuel with
  | zero => intro nr; simp [ring_loop]
  | succ f ih =>
    intro nr
    have hcap : m * (nr + 1) - m * nr = m := by
      rw [Nat.mul_add, Nat.mul_one]; omega
    have hle : m * (nr + 1) - m * nr ≤ (step_slots stride).length := by
      rw [hcap]; exact hslots
    have hmap := fill_ring_label_map sD cD (rr + (nr : ℚ) * RING_SPACING)
      (m * (nr + 1)) (step_slots stride) (m * nr) hle
    have hlen := fill_ring_length sD cD (rr + (nr : ℚ) * RING_SPACING)
      (m * (nr + 1)) (step_slots stride) (m * nr) hle
    rw [hcap] at hmap hlen
    have hnext : m * nr + m = m * (nr + 1) := by
      rw [Nat.mul_add, Nat.mul_one]
    simp only [ring_loop]
    rw [List.map_append, hmap, hlen, hnext, ih (nr + 1)]
    have happ := List.range'_append_1 (m * nr) m (f * m)
    rw [hnext] at happ
    rw [happ, Nat.add_mul, Nat.one_mul, Nat.add_comm (f * m) m]

/-- Rust's `div_ceil` agrees with the ceiling-division formula
`(a + b - 1) / b` whenever the divisor is positive. -/
theorem div_ceil_eq (a b : Nat) (hb : 0 < b) : div_ceil a b = (a + b - 1) / b := by
  unfold div_ceil
  have hdm := Nat.div_add_mod a b
  have hmlt : a % b < b := Nat.mod_lt a hb
  by_cases h : a % b = 0
  · have he : a + b - 1 = b * (a / b) + (b - 1) := by omega
    rw [if_pos h, he, Nat.mul_add_div hb,
      Nat.div_eq_of_lt (show b - 1 < b by omega)]
  · have he : a + b - 1 = b * (a / b + 1) + (a % b - 1) := by
      rw [Nat.mul_add, Nat.mul_one]; omega
    rw [if_neg h, he, Nat.mul_add_div hb,
      Nat.div_eq_of_lt (show a % b - 1 < b by omega)]

/-- The generator always plans at least one ring when the modulus is valid. -/
theorem num_rings_pos (cycle : Bool) (natural modulus : Nat) (h : 1 ≤ modulus) :
    1 ≤ num_rings cycle natural modulus := by
  cases cycle with
  | true => simp [num_rings]
  | false =>
    simp only [num_rings, Bool.false_eq_true, if_false]
    unfold div_ceil
    by_cases hr : (natural + 1) % modulus = 0
    · have hdvd : modulus ∣ natural + 1 := Nat.dvd_iff_mod_eq_zero.mpr hr
      have hle : modulus ≤ natural + 1 := Nat.le_of_dvd (by omega) hdvd
      have : 1 * modulus ≤ natural + 1 := by omega
      have := (Nat.le_div_iff_mul_le h).mpr this
      omega
    · simp [hr]

/-- Successful unfolding of `generate_points`: when neither panic fires, the
result is exactly the ring walk. -/
theorem generate_points_ok_form (sD cD : Nat → ℚ) (cycle : Bool)
    (natural modulus : Nat) (h1 : ¬ modulus = 0) (h2 : ¬ 360 / modulus = 0) :
    generate_points sD cD cycle natural modulus
      = .ok (ring_loop sD cD
          (if cycle then (320 : ℚ) else CIRCLE_SIZE * (modulus : ℚ) / RING_RADIUS_SCALE)
          modulus (360 / modulus) (num_rings cycle natural modulus) 0 0) := by
  simp [generate_points, h1, h2]

/-- Behaviour of `generate_points` for every valid modulus: the run succeeds
and the emitted labels are exactly `0, 1, …, num_rings * modulus - 1` in
order (every ring is filled with exactly `modulus` points; the generation
never stops early inside the planned rings). -/
theorem generate_points_eq_ok (sD cD : Nat → ℚ) (cycle : Bool)
    (natural modulus : Nat) (h1 : 1 ≤ modulus) (h2 : modulus ≤ 360) :
    ∃ pts, generate_points sD cD cycle natural modulus = .ok pts ∧
      pts.map Point.label = List.range (num_rings cycle natural modulus * modulus) ∧
      pts.length = num_rings cycle natural modulus * modulus := by
  have hm0 : ¬ modulus = 0 := by omega
  have hs : 0 < 360 / modulus := (Nat.le_div_iff_mul_le h1).mpr (by omega)
  have hs0 : ¬ 360 / modulus = 0 := by omega
  have hslots := modulus_le_slots modulus h1 h2
  have hlab := ring_loop_label_map sD cD
    (if cycle then (320 : ℚ) else CIRCLE_SIZE * (modulus : ℚ) / RING_RADIUS_SCALE)
    modulus (360 / modulus) hslots (num_rings cycle natural modulus) 0
  rw [Nat.mul_zero] at hlab
  rw [← List.range_eq_range'] at hlab
  refine ⟨_, generate_points_ok_form sD cD cycle natural modulus hm0 hs0, hlab, ?_⟩
  have := congrArg List.length hlab
  simpa using this

/-- Committing `modulus = 0` panics with a division by zero before any point
is produced (in Rust: `div_ceil` and the stride division both divide by
`modulus`). -/
theorem generate_points_mod_zero (sD cD : Nat → ℚ) (cycle : Bool) (natural : Nat) :
    generate_points sD cD cycle natural 0 = .error .divByZero := by
  simp [generate_points]

/-- Committing `modulus > 360` panics: the integer stride `360 / modulus`
truncates to zero and Rust's `step_by(0)` asserts. -/
theorem generate_points_mod_big (sD cD : Nat → ℚ) (cycle : Bool)
    (natural modulus : Nat) (h : 360 < modulus) :
    generate_points sD cD cycle natural modulus = .error .zeroStep := by
  have h0 : ¬ modulus = 0 := by omega
  have hs : 360 / modulus = 0 := Nat.div_eq_of_lt h
  simp [generate_points, h0, hs]

/-- Inversion: any successful run of `generate_points` pins the modulus into
`1 ≤ modulus ≤ 360` and the points to the full-ring label layout. -/
theorem generate_points_ok_inv (sD cD : Nat → ℚ) (cycle : Bool)
    (natural modulus : Nat) (pts : List Point)
    (h : generate_points sD cD cycle natural modulus = .ok pts) :
    1 ≤ modulus ∧ modulus ≤ 360 ∧
      pts.map Point.label = List.range (num_rings cycle natural modulus * modulus) ∧
      pts.length = num_rings cycle natural modulus * modulus := by
  have h1 : 1 ≤ modulus := by
    by_contra hc
    have h0 : modulus = 0 := by omega
    rw [h0, generate_points_mod_zero] at h
    cases h
  have h2 : modulus ≤ 360 := by
    by_contra hc
    rw [generate_points_mod_big sD cD cycle natural modulus (by omega)] at h
    cases h
  obtain ⟨pts', he, hmap, hlen⟩ := generate_points_eq_ok sD cD cycle natural modulus h1 h2
  rw [he] at h
  injection h with hh
  subst hh
  exact ⟨h1, h2, hmap, hlen⟩

/-- Successful unfolding of `compute_rings`: when neither division panics,
the result lists the rings outermost first with their scale factor and
binary opacity. -/
theorem compute_rings_ok_form (natural modulus points_len time : Nat)
    (h1 : ¬ modulus = 0) (h2 : ¬ points_len / div_ceil (natural + 1) modulus = 0) :
    compute_rings natural modulus points_len time
      = .ok (((List.range (div_ceil (natural + 1) modulus)).reverse).map (fun nr : Nat =>
          (CIRCLE_SIZE * (modulus : ℚ) / RING_RADIUS_SCALE + (nr : ℚ) * RING_SPACING,
            if nr ≤ (time - 1) / (points_len / div_ceil (natural + 1) modulus)
              then (1 : ℚ) else 0))) := by
  simp [compute_rings, h1, h2]

/-- A zero points-per-ring estimate makes `compute_rings` divide by zero. -/
theorem compute_rings_ppr_zero (natural modulus points_len time : Nat)
    (h1 : ¬ modulus = 0) (h2 : points_len / div_ceil (natural + 1) modulus = 0) :
    compute_rings natural modulus points_len time = .error .divByZero := by
  simp [compute_rings, h1, h2]

/-- Inversion for successful runs of `compute_rings`. -/
theorem compute_rings_ok_inv (natural modulus points_len time : Nat)
    (rings : List (ℚ × ℚ))
    (h : compute_rings natural modulus points_len time = .ok rings) :
    ¬ modulus = 0 ∧ ¬ points_len / div_ceil (natural + 1) modulus = 0 ∧
      rings = ((List.range (div_ceil (natural + 1) modulus)).reverse).map (fun nr : Nat =>
        (CIRCLE_SIZE * (modulus : ℚ) / RING_RADIUS_SCALE + (nr : ℚ) * RING_SPACING,
          if nr ≤ (time - 1) / (points_len / div_ceil (natural + 1) modulus)
            then (1 : ℚ) else 0)) := by
  by_cases h1 : modulus = 0
  · simp [compute_rings, h1] at h
  · by_cases h2 : points_len / div_ceil (natural + 1) modulus = 0
    · rw [compute_rings_ppr_zero natural modulus points_len time h1 h2] at h
      cases h
    · rw [compute_rings_ok_form natural modulus points_len time h1 h2] at h
      injection h with hh
      exact ⟨h1, h2, hh.symm⟩

/-- Element lookup in the reversed ring list: the entry at position
`k - 1 - nr` (with `nr < k` and `k` the ring count) describes ring `nr`. -/
theorem reverse_range_map_get {α : Type} (f : Nat → α) (k nr : Nat) (h : nr < k) :
    (((List.range k).reverse).map f)[k - 1 - nr]? = some (f nr) := by
  have hidx : k - 1 - nr < (List.range k).length := by
    rw [List.length_range]; omega
  rw [List.getElem?_map, List.getElem?_reverse (by simpa using hidx)]
  have hswap : (List.range k).length - 1 - (k - 1 - nr) = nr := by
    rw [List.length_range]; omega
  rw [hswap, List.getElem?_range h]
  rfl

/-- Lifting a label predicate through `filter` and `map`: filtering points by
a property of their label commutes with projecting the labels. -/
theorem map_label_filter (p : Nat → Bool) (l : List Point) :
    (l.filter (fun pt => p pt.label)).map Point.label
      = (l.map Point.label).filter p := by
  induction l with
  | nil => simp
  | cons x xs ih =>
    by_cases h : p x.label <;> simp [List.filter_cons, h, ih]

/-- Auxiliary soundness of the cycle-arrow walk: when every computed target
index lands inside the point list, the walk never hits the out-of-bounds
panic, whatever suffix it still has to visit. -/
theorem cycle_arrows_go_isSome (natural modulus : Nat) (points : List Point)
    (hb : ∀ i : Nat, (i + natural) % modulus < points.length) :
    ∀ (visit : List Point) (i : Nat),
      (cycle_arrows_go natural modulus points visit i).isSome := by
  intro visit
  induction visit with
  | nil => intro i; simp [cycle_arrows_go]
  | cons p rest ih =>
    intro i
    have hget := List.getElem?_eq_getElem (hb i)
    simp [cycle_arrows_go, hget, ih (i + 1)]

/-- C1 counterexample: committing `natural = 7, modulus = 3` in Reduction
mode produces 9 points, not `natural + 1 = 8` — the generator fills every
planned ring completely instead of stopping once the label counter exceeds
`natural` (this matches the repository's own `test_generate_points`, which
expects 9). -/
theorem reduction_point_count_cex :
    (generate_points q0 q0 false 7 3).map List.length = .ok 9 ∧ (9 : Nat) ≠ 7 + 1 :=
  ⟨by decide, by decide⟩

/-- C1 (amended): in Reduction mode, for every natural and every modulus with
`1 ≤ modulus ≤ 360`, generation succeeds and the layout contains exactly
`ceil((natural + 1) / modulus) * modulus` points labelled `0, 1, …` in order:
the generation never stops once the label counter exceeds `natural`; every
planned ring, the last included, is filled with exactly `modulus` points. -/
theorem reduction_point_count (sD cD : Nat → ℚ) (natural modulus : Nat)
    (h1 : 1 ≤ modulus) (h2 : modulus ≤ 360) :
    ∃ pts, generate_points sD cD false natural modulus = .ok pts ∧
      pts.length = div_ceil (natural + 1) modulus * modulus ∧
      pts.map Point.label = List.range (div_ceil (natural + 1) modulus * modulus) := by
  obtain ⟨pts, he, hmap, hlen⟩ := generate_points_eq_ok sD cD false natural modulus h1 h2
  exact ⟨pts, he, by simpa [num_rings] using hlen, by simpa [num_rings] using hmap⟩

/-- C1 witness: the amended count at `natural = 7, modulus = 3`. -/
theorem reduction_point_count_w :
    (1 ≤ 3 ∧ 3 ≤ 360) ∧
    ∃ pts, generate_points q0 q0 false 7 3 = .ok pts ∧
      pts.length = div_ceil (7 + 1) 3 * 3 ∧
      pts.map Point.label = List.range (div_ceil (7 + 1) 3 * 3) :=
  ⟨⟨by decide, by decide⟩, reduction_point_count q0 q0 7 3 (by decide) (by decide)⟩

/-- C6: in Reduction mode the ring count both code sites compute is the
ceiling division `ceil((natural + 1) / modulus)` — Rust's `div_ceil`, never
floor division — and every successful `compute_rings` run returns exactly
that many rings. -/
theorem ring_count_ceil (natural modulus : Nat) (h : 1 ≤ modulus) :
    num_rings false natural modulus = ceil_rings_spec natural modulus ∧
    ∀ points_len time rings,
      compute_rings natural modulus points_len time = .ok rings →
        rings.length = ceil_rings_spec natural modulus := by
  constructor
  · simp only [num_rings, Bool.false_eq_true, if_false]
    rw [div_ceil_eq (natural + 1) modulus h]
    rfl
  · intro points_len time rings hr
    obtain ⟨-, -, hh⟩ := compute_rings_ok_inv natural modulus points_len time rings hr
    rw [hh]
    simp [div_ceil_eq (natural + 1) modulus h, ceil_rings_spec]

/-- C6 witness: the exact-multiple edge case `natural = 3, modulus = 3`
yields 2 rings, and a concrete `compute_rings` run returns 2 rings. -/
theorem ring_count_ceil_w :
    num_rings false 3 3 = 2 ∧ (compute_rings 3 3 6 9).map List.length = .ok 2 :=
  ⟨(ring_count_ceil 3 3 (by decide)).1.trans (by decide), by decide⟩

/-- C7 counterexample: in Cycle mode with `modulus = 361` the stride
`360 / 361` truncates to `0` and `step_by(0)` panics, so no layout with
`modulus` points exists — the claim fails for that `modulus ≥ 1`. -/
theorem cycle_point_count_cex :
    (generate_points q0 q0 true 0 361).map List.length ≠ .ok 361 := by decide

/-- C7 (amended): in Cycle mode, for every natural and every modulus with
`1 ≤ modulus ≤ 360`, the layout is a single ring holding exactly `modulus`
points labelled with the residues `0 … modulus - 1`; for `modulus > 360`
generation panics because the integer angular stride truncates to zero. -/
theorem cycle_layout (sD cD : Nat → ℚ) (natural modulus : Nat)
    (h1 : 1 ≤ modulus) (h2 : modulus ≤ 360) :
    num_rings true natural modulus = 1 ∧
    ∃ pts, generate_points sD cD true natural modulus = .ok pts ∧
      pts.length = modulus ∧ pts.map Point.label = List.range modulus := by
  obtain ⟨pts, he, hmap, hlen⟩ := generate_points_eq_ok sD cD true natural modulus h1 h2
  exact ⟨rfl, pts, he, by simpa [num_rings] using hlen, by simpa [num_rings] using hmap⟩

/-- C7 witness: the cycle layout for `natural = 1, modulus = 3`. -/
theorem cycle_layout_w :
    (1 ≤ 3 ∧ 3 ≤ 360) ∧
    (num_rings true 1 3 = 1 ∧
      ∃ pts, generate_points q0 q0 true 1 3 = .ok pts ∧
        pts.length = 3 ∧ pts.map Point.label = List.range 3) :=
  ⟨⟨by decide, by decide⟩, cycle_layout q0 q0 1 3 (by decide) (by decide)⟩

/-- C10: for every layout produced by `generate_points` in Cycle mode, every
cycle-arrow target index `(i + natural) % modulus` is strictly below the
point count (the layout has exactly `modulus` points and a successful run
forces `modulus ≥ 1`), so the point lookup in `draw_cycle_arrows` is always
in bounds and never panics, at any elapsed time. -/
theorem cycle_arrow_index_safe (sD cD : Nat → ℚ) (natural modulus : Nat)
    (pts : List Point)
    (h : generate_points sD cD true natural modulus = .ok pts) :
    (∀ i, i < pts.length → (i + natural) % modulus < pts.length) ∧
    ∀ time, (draw_cycle_arrows time natural modulus pts).isSome := by
  obtain ⟨h1, -, -, hlen⟩ := generate_points_ok_inv sD cD true natural modulus pts h
  have hlenm : pts.length = modulus := by simpa [num_rings] using hlen
  have hb : ∀ i : Nat, (i + natural) % modulus < pts.length := by
    intro i
    rw [hlenm]
    exact Nat.mod_lt _ (by omega)
  exact ⟨fun i _ => hb i,
    fun time => cycle_arrows_go_isSome natural modulus pts hb (pts.take time) 0⟩

/-- C10 witness: the panic-free arrow walk on the generated cycle layout for
`natural = 1, modulus = 3`, queried at elapsed time 5. -/
theorem cycle_arrow_index_safe_w :
    (generate_points q0 q0 true 1 3).map
      (fun pts => (draw_cycle_arrows 5 1 3 pts).isSome) = .ok true := by
  obtain ⟨pts, he, -, -⟩ := generate_points_eq_ok q0 q0 true 1 3 (by decide) (by decide)
  rw [he]
  exact congrArg Except.ok ((cycle_arrow_index_safe q0 q0 1 3 pts he).2 5)

/-- C3 counterexample: in Cycle mode `draw_points` skips the time guard and
draws every point at once, so at elapsed time `0` the cycle layout for
`natural = 1, modulus = 3` already shows all 3 points — not
`min(floor(0 / period), 3) = 0` as the claim states for either mode. -/
theorem reveal_count_cex :
    (generate_points q0 q0 true 1 3).map
        (fun pts => (visible_points true 0 pts).length) = .ok 3 ∧
    (3 : Nat) ≠ min 0 3 :=
  ⟨by decide, by decide⟩

/-- C3 (amended): in Reduction mode the number of visible points at truncated
elapsed time `t` is exactly `min t totalCount`, is non-decreasing in `t` and
saturates at the total point count; in Cycle mode every point is visible at
every elapsed time (the count is constantly `totalCount`). -/
theorem reveal_count (time time' : Nat) (pts : List Point) (h : time ≤ time') :
    (visible_points false time pts).length = min time pts.length ∧
    (visible_points false time pts).length ≤ (visible_points false time' pts).length ∧
    (visible_points false time pts).length ≤ pts.length ∧
    (visible_points true time pts).length = pts.length := by
  have h1 : (visible_points false time pts).length = min time pts.length := by
    simp [visible_points]
  have h2 : (visible_points false time' pts).length = min time' pts.length := by
    simp [visible_points]
  have h4 : (visible_points true time pts).length = pts.length := by
    simp [visible_points]
  refine ⟨h1, ?_, ?_, h4⟩
  · rw [h1, h2]; omega
  · rw [h1]; omega

/-- C3 witness: the amended reveal counts on a concrete three-point layout
at times 2 and 5. -/
theorem reveal_count_w :
    2 ≤ 5 ∧
    ((visible_points false 2
        [{ x := 0, y := 0, label := 0 }, { x := 0, y := 0, label := 1 },
         { x := 0, y := 0, label := 2 }]).length
      = min 2 ([{ x := 0, y := 0, label := 0 }, { x := 0, y := 0, label := 1 },
         { x := 0, y := 0, label := 2 }] : List Point).length ∧
    (visible_points false 2
        [{ x := 0, y := 0, label := 0 }, { x := 0, y := 0, label := 1 },
         { x := 0, y := 0, label := 2 }]).length
      ≤ (visible_points false 5
        [{ x := 0, y := 0, label := 0 }, { x := 0, y := 0, label := 1 },
         { x := 0, y := 0, label := 2 }]).length ∧
    (visible_points false 2
        [{ x := 0, y := 0, label := 0 }, { x := 0, y := 0, label := 1 },
         { x := 0, y := 0, label := 2 }]).length
      ≤ ([{ x := 0, y := 0, label := 0 }, { x := 0, y := 0, label := 1 },
         { x := 0, y := 0, label := 2 }] : List Point).length ∧
    (visible_points true 2
        [{ x := 0, y := 0, label := 0 }, { x := 0, y := 0, label := 1 },
         { x := 0, y := 0, label := 2 }]).length
      = ([{ x := 0, y := 0, label := 0 }, { x := 0, y := 0, label := 1 },
         { x := 0, y := 0, label := 2 }] : List Point).length) :=
  ⟨by decide, reveal_count 2 5
    [{ x := 0, y := 0, label := 0 }, { x := 0, y := 0, label := 1 },
     { x := 0, y := 0, label := 2 }] (by decide)⟩

/-- C2 counterexample: with `visiblePointCount = 0` the claim demands every
ring transparent, but `compute_rings 7 3 9 0` (the `natural = 7, modulus = 3`
layout queried at time 0) marks ring 0 — the last entry of the
outermost-first list — fully opaque: `saturating_sub` makes `0 - 1 = 0` and
`0 / ppr = 0 ≥ 0`. -/
theorem ring_opacity_cex :
    (compute_rings 7 3 9 0).map (fun rings => rings.map Prod.snd)
      = .ok [0, 0, 1] ∧ (1 : ℚ) ≠ 0 :=
  ⟨by decide, by decide⟩

/-- C2 (amended): in Reduction mode ring `nr` is opaque exactly when
`(visiblePointCount ⊖ 1) / pointsPerRing ≥ nr` with saturating subtraction
`⊖`; opacity is binary; ring 0 is opaque at every time — including
`visiblePointCount = 0`, where all other rings are transparent. -/
theorem ring_opacity (natural modulus points_len time : Nat) (h1 : 1 ≤ modulus)
    (h2 : 1 ≤ points_len / div_ceil (natural + 1) modulus) :
    ∃ rings, compute_rings natural modulus points_len time = .ok rings ∧
      (∀ nr, nr < div_ceil (natural + 1) modulus →
        (rings[div_ceil (natural + 1) modulus - 1 - nr]?).map Prod.snd
          = some (if nr ≤ (time - 1) / (points_len / div_ceil (natural + 1) modulus)
              then (1 : ℚ) else 0)) ∧
      (∀ r ∈ rings, r.2 = 0 ∨ r.2 = 1) ∧
      (rings[div_ceil (natural + 1) modulus - 1]?).map Prod.snd = some 1 ∧
      (time = 0 → ∀ nr, 1 ≤ nr → nr < div_ceil (natural + 1) modulus →
        (rings[div_ceil (natural + 1) modulus - 1 - nr]?).map Prod.snd = some 0) := by
  have hm0 : ¬ modulus = 0 := by omega
  have hppr0 : ¬ points_len / div_ceil (natural + 1) modulus = 0 := by omega
  have hk : 1 ≤ div_ceil (natural + 1) modulus := by
    by_contra hc
    have h0 : div_ceil (natural + 1) modulus = 0 := by omega
    rw [h0] at h2
    simp at h2
  refine ⟨_, compute_rings_ok_form natural modulus points_len time hm0 hppr0,
    ?_, ?_, ?_, ?_⟩
  · intro nr hnr
    rw [reverse_range_map_get _ _ _ hnr]
    rfl
  · intro r hr
    simp only [List.mem_map] at hr
    obtain ⟨nr, -, hfr⟩ := hr
    rw [← hfr]
    by_cases hc : nr ≤ (time - 1) / (points_len / div_ceil (natural + 1) modulus)
    · right; simp [hc]
    · left; simp [hc]
  · have h0 := reverse_range_map_get
      (f := fun nr : Nat =>
        (CIRCLE_SIZE * (modulus : ℚ) / RING_RADIUS_SCALE + (nr : ℚ) * RING_SPACING,
          if nr ≤ (time - 1) / (points_len / div_ceil (natural + 1) modulus)
            then (1 : ℚ) else 0))
      (div_ceil (natural + 1) modulus) 0 (by omega)
    rw [Nat.sub_zero] at h0
    rw [h0]
    simp [Nat.zero_le]
  · intro ht nr h1nr hnr
    rw [reverse_range_map_get _ _ _ hnr]
    subst ht
    have hcnd : ¬ nr ≤ (0 - 1) / (points_len / div_ceil (natural + 1) modulus) := by
      simp only [Nat.zero_sub, Nat.zero_div]
      omega
    simp [hcnd]
    omega

/-- C2 witness: the amended opacity rule on the `natural = 7, modulus = 3,
points_len = 9` layout at time 5 — the innermost ring reads opaque. -/
theorem ring_opacity_w :
    (1 ≤ 3 ∧ 1 ≤ 9 / div_ceil (7 + 1) 3) ∧
    (compute_rings 7 3 9 5).map
      (fun rings => (rings[div_ceil (7 + 1) 3 - 1]?).map Prod.snd)
      = .ok (some 1) := by
  obtain ⟨rings, he, -, -, hring0, -⟩ := ring_opacity 7 3 9 5 (by decide) (by decide)
  refine ⟨⟨by decide, by decide⟩, ?_⟩
  rw [he]
  exact congrArg Except.ok hring0

/-- C4 counterexample: with `pointsPerRing = 0` (here `points_len = 0`) the
ring-opacity computation performs the division by zero the claim says it
avoids — the Rust code panics; no `DegenerateLayout` condition exists
anywhere in the program. -/
theorem degenerate_rings_cex :
    compute_rings 0 1 0 5 = .error .divByZero := by decide

/-- C4 (amended): if `pointsPerRing == 0`, the ring-opacity computation
panics with a division by zero (`time.saturating_sub(1) / ppr`); it does not
fail gracefully and there is no `DegenerateLayout` condition. -/
theorem degenerate_rings (natural modulus points_len time : Nat)
    (h1 : 1 ≤ modulus) (h2 : points_len / div_ceil (natural + 1) modulus = 0) :
    compute_rings natural modulus points_len time = .error .divByZero :=
  compute_rings_ppr_zero natural modulus points_len time (by omega) h2

/-- C4 witness: the division-by-zero panic at a concrete degenerate input. -/
theorem degenerate_rings_w :
    (1 ≤ 2 ∧ 0 / div_ceil (3 + 1) 2 = 0) ∧
    compute_rings 3 2 0 7 = .error .divByZero :=
  ⟨⟨by decide, by decide⟩, degenerate_rings 3 2 0 7 (by decide) (by decide)⟩

/-- C5 counterexample: committing `modulus = 0` does not fail with a
recoverable `InvalidConfiguration` error that preserves the prior state — it
panics with a division by zero (`natural % 0` and, inside the generator,
`360 / 0`); no `InvalidConfiguration` error exists in the program. -/
theorem invalid_configuration_cex :
    commit q0 q0 false 7 0 = .error .divByZero := by decide

/-- C5 (amended): committing a configuration with `modulus == 0` panics with
a division by zero before any point is produced — both in the `update`
commit branch (`natural % modulus`) and inside `generate_points` — rather
than raising a recoverable `InvalidConfiguration` error; the interactive
slider restricts the modulus to `1..=40`, so the panic is unreachable
through the UI. -/
theorem commit_modulus_zero (sD cD : Nat → ℚ) (cycle : Bool) (natural : Nat) :
    commit sD cD cycle natural 0 = .error .divByZero ∧
    generate_points sD cD cycle natural 0 = .error .divByZero :=
  ⟨by simp [commit], generate_points_mod_zero sD cD cycle natural⟩

/-- C8: the reduction highlight arrow never renders while the truncated
elapsed time is at most the total point count (so never before every point
is visible), and on the `natural = 7, modulus = 3` layout queried one past
the total (time 10, total 9) it connects the outermost congruent point,
label 7, to the innermost one, label 1. -/
theorem reduction_arrow_spec :
    (∀ (time modulus result : Nat) (pts : List Point), time ≤ pts.length →
      draw_arrow_reduction time pts modulus result = none) ∧
    (∀ sD cD : Nat → ℚ, ∃ pts, generate_points sD cD false 7 3 = .ok pts ∧
      (draw_arrow_reduction 10 pts 3 (7 % 3)).map
        (fun pr => (pr.1.label, pr.2.label)) = some (7, 1)) := by
  constructor
  · intro time modulus result pts h
    simp [draw_arrow_reduction, h]
  · intro sD cD
    obtain ⟨pts, he, hmap, hlen⟩ :=
      generate_points_eq_ok sD cD false 7 3 (by decide) (by decide)
    have hmap9 : pts.map Point.label = List.range 9 := by
      simpa [num_rings, div_ceil] using hmap
    have hlen9 : pts.length = 9 := by
      simpa [num_rings, div_ceil] using hlen
    refine ⟨pts, he, ?_⟩
    have hfil : (pts.filter (fun pt => pt.label % 3 == 7 % 3)).map Point.label
        = [1, 4, 7] := by
      rw [map_label_filter (fun x => x % 3 == 7 % 3) pts, hmap9]
      decide
    have hhead : (pts.filter (fun pt => pt.label % 3 == 7 % 3)).head?.map Point.label
        = some 1 := by
      rw [← List.head?_map, hfil]
      rfl
    have hlast : (pts.filter (fun pt => pt.label % 3 == 7 % 3)).getLast?.map Point.label
        = some 7 := by
      rw [← List.getLast?_map, hfil]
      rfl
    obtain ⟨inner_pt, hih, hil⟩ := Option.map_eq_some'.mp hhead
    obtain ⟨outer_pt, hoh, hol⟩ := Option.map_eq_some'.mp hlast
    simp only [draw_arrow_reduction]
    rw [if_neg (by omega)]
    simp only [hih, hoh]
    simp [hil, hol]

/-- C8 witness: the no-render guard at a concrete early time, and the
concrete connected labels one past the total. -/
theorem reduction_arrow_spec_w :
    draw_arrow_reduction 0 ([] : List Point) 3 1 = none ∧
    ∃ pts, generate_points q0 q0 false 7 3 = .ok pts ∧
      (draw_arrow_reduction 10 pts 3 (7 % 3)).map
        (fun pr => (pr.1.label, pr.2.label)) = some (7, 1) :=
  ⟨reduction_arrow_spec.1 0 3 1 [] (by decide), reduction_arrow_spec.2 q0 q0⟩

/-- C9: `shrink_arrow` returns exactly the 5%-inward linear interpolation of
both endpoints; shrinking a degenerate segment is the identity on its point;
and for geometrically distinct endpoints the new start is strictly closer to
the end point and the new end strictly closer to the start point. -/
theorem shrink_arrow_spec (A B : Point) :
    (shrink_arrow A B).start
        = (A.x + 1 / 20 * (B.x - A.x), A.y + 1 / 20 * (B.y - A.y)) ∧
    (shrink_arrow A B).end_
        = (B.x - 1 / 20 * (B.x - A.x), B.y - 1 / 20 * (B.y - A.y)) ∧
    shrink_arrow A A = { start := (A.x, A.y), end_ := (A.x, A.y) } ∧
    ((A.x, A.y) ≠ (B.x, B.y) →
      dist2 (shrink_arrow A B).start (B.x, B.y) < dist2 (A.x, A.y) (B.x, B.y) ∧
      dist2 (shrink_arrow A B).end_ (A.x, A.y) < dist2 (B.x, B.y) (A.x, A.y)) := by
  refine ⟨rfl, rfl, ?_, ?_⟩
  · simp [shrink_arrow]
  · intro hne
    have hnonneg : 0 ≤ dist2 (A.x, A.y) (B.x, B.y) := by
      unfold dist2; positivity
    have hpos : 0 < dist2 (A.x, A.y) (B.x, B.y) := by
      rcases hnonneg.lt_or_eq with hlt | heq
      · exact hlt
      · exfalso
        apply hne
        unfold dist2 at heq
        simp only at heq
        have hx2 : (A.x - B.x) ^ 2 = 0 := by
          nlinarith [sq_nonneg (A.x - B.x), sq_nonneg (A.y - B.y)]
        have hy2 : (A.y - B.y) ^ 2 = 0 := by
          nlinarith [sq_nonneg (A.x - B.x), sq_nonneg (A.y - B.y)]
        have hx : A.x = B.x := by
          have := sub_eq_zero.mp (sq_eq_zero_iff.mp hx2)
          exact this
        have hy : A.y = B.y := by
          have := sub_eq_zero.mp (sq_eq_zero_iff.mp hy2)
          exact this
        rw [hx, hy]
    have heqs : dist2 (shrink_arrow A B).start (B.x, B.y)
        = 361 / 400 * dist2 (A.x, A.y) (B.x, B.y) := by
      simp only [shrink_arrow, dist2]
      ring
    have heqe : dist2 (shrink_arrow A B).end_ (A.x, A.y)
        = 361 / 400 * dist2 (A.x, A.y) (B.x, B.y) := by
      simp only [shrink_arrow, dist2]
      ring
    have hsymm : dist2 (B.x, B.y) (A.x, A.y) = dist2 (A.x, A.y) (B.x, B.y) := by
      unfold dist2; ring
    constructor
    · rw [heqs]; linarith
    · rw [heqe, hsymm]; linarith

/-- C9 witness: the strict-shrinking clauses at the two concrete markers the
repository's own `test_shrink_arrow` uses. -/
theorem shrink_arrow_spec_w :
    (((0 : ℚ), (32 : ℚ)) ≠ ((0 : ℚ), (-32 : ℚ))) ∧
    (dist2 (shrink_arrow { x := 0, y := 32, label := 0 }
        { x := 0, y := -32, label := 1 }).start (0, -32)
      < dist2 (0, 32) (0, -32) ∧
    dist2 (shrink_arrow { x := 0, y := 32, label := 0 }
        { x := 0, y := -32, label := 1 }).end_ (0, 32)
      < dist2 (0, -32) (0, 32)) :=
  ⟨by decide,
    (shrink_arrow_spec { x := 0, y := 32, label := 0 }
      { x := 0, y := -32, label := 1 }).2.2.2 (by decide)⟩
